import Mathlib

/-!
# goget: a parallel, chunked HTTP downloader

A shallow embedding of `src/goget.go` and the properties of its download
engine: range partitioning (`launchDLChunks`), chunk fetching
(`downloadChunk`), completion and progress tracking (`checkComplete`,
`globalProgress`) and ordered assembly (the write loop of `downloadFile`).

Modelling conventions.

* Go structs become Lean structures; a method with a pointer receiver becomes
  a function from the old state to the new one. `chunkArray []*FileChunk` is
  the list of the chunk values the pointers refer to.
* `int64` and `int` values are integers of `Int`. The partitioning is embedded
  twice: `launchDLChunks64` applies the two's-complement wrap-around of
  `int64` (`wrap64`) to every sum, difference and quotient, as the Go code
  does; `launchDLChunks` is the same method over unbounded integers. The two
  agree whenever `dlsize + dlsize / parts < 2 ^ 63`
  (`launchDLChunks64_eq_launchDLChunks`), which holds for every size that the
  chunk buffers can hold. Go's `/` on integers truncates toward zero
  (`Int.tdiv`) and panics on a zero divisor (`Outcome.divideByZero`).
* Loops whose trip count is not bounded by the length of a list run on fuel;
  running out of fuel is the outcome `outOfFuel` (resp. `none`), never a result.
* The wall clock, the HTTP response body and the destination file are explicit
  arguments: `now` (nanoseconds), a `Body` (the results of the successive calls
  of `Read`) and a `File` (the log of the `Write` calls made on the handle).
* Fields of `FileChunk` that no modelled function reads (`job`, `resp`, `err`)
  are left out.
-/

namespace Goget

/-! ## Data model -/

/-- One octet of a buffer (`byte`). -/
abbrev Byte := UInt8

/-- Result of running a piece of the program: normal completion, the run-time
panic "integer divide by zero", or exhaustion of the fuel given to a loop. -/
inductive Outcome (α : Type) where
  | done (a : α)
  | divideByZero
  | outOfFuel
deriving DecidableEq, Repr

/-- Sequencing of outcomes: a panic or fuel exhaustion stops the run. -/
def Outcome.bind {α β : Type} (o : Outcome α) (k : α → Outcome β) : Outcome β :=
  match o with
  | Outcome.done a => k a
  | Outcome.divideByZero => Outcome.divideByZero
  | Outcome.outOfFuel => Outcome.outOfFuel

/-- Go integer division `a / b`: truncated quotient, panic when `b` is zero. -/
def goDiv (a b : Int) : Outcome Int :=
  if b = 0 then Outcome.divideByZero else Outcome.done (Int.tdiv a b)

/-- An open destination file (`*os.File`): the payloads of the `Write` calls
made on it so far, in call order, and whether `Close` has run. -/
structure File where
  writes : List (List Byte)
  closed : Bool
deriving DecidableEq, Repr

/-- The file just created by `os.Create` (created or truncated, nothing written). -/
def File.create : File := { writes := [], closed := false }

/-- Bytes held by the file: the written payloads one after the other. -/
def File.content (f : File) : List Byte := f.writes.flatten

/-- The call `outputfile.Write(b)` on a handle that may be nil: a nil handle
writes nothing (the call returns an error that the program drops). -/
def File.Write (f : Option File) (b : List Byte) : Option File :=
  match f with
  | none => none
  | some h => some { h with writes := h.writes ++ [b] }

/-- The call `outputfile.Close()` on a handle that may be nil. -/
def File.Close (f : Option File) : Option File :=
  match f with
  | none => none
  | some h => some { h with closed := true }

/-- FileChunk: a single chunk of the download (`type FileChunk struct`). -/
structure FileChunk where
  url : String
  chunkdata : List Byte
  startbyte : Int
  endbyte : Int
  buflen : Int
  bytesdone : Int
  completed : Bool
deriving DecidableEq, Repr

/-- The zero-valued chunk made by `new(FileChunk)`. -/
def FileChunk.new : FileChunk :=
  { url := "", chunkdata := [], startbyte := 0, endbyte := 0, buflen := 0,
    bytesdone := 0, completed := false }

/-- DownloadTask: a single download task (`type DownloadTask struct`);
`starttime` is in nanoseconds. -/
structure DownloadTask where
  url : String
  parts : Int
  chunkArray : List FileChunk
  dlsize : Int
  completed : Bool
  outputfile : Option File
  totalbdl : Int
  starttime : Int
deriving DecidableEq, Repr

/-- The zero-valued task made by `new(DownloadTask)`. -/
def DownloadTask.new : DownloadTask :=
  { url := "", parts := 0, chunkArray := [], dlsize := 0, completed := false,
    outputfile := none, totalbdl := 0, starttime := 0 }

/-! ## Range partitioning -/

/-- The method `setupChunkDownload`: initialise the values of a chunk. -/
def setupChunkDownload (chunk : FileChunk) (url : String) (startbyte endbyte : Int) :
    FileChunk :=
  { chunk with
    url := url
    startbyte := startbyte
    endbyte := endbyte
    completed := false
    buflen := 32 * 1024
    bytesdone := 0 }

/-- The loop of `launchDLChunks`,
`for i := v; i > 0; i = i - chunksize`, from the loop state `i`, `nextbyte`,
`chunkArray`. -/
def launchLoop (url : String) (chunksize : Int) :
    Nat → Int → Int → List FileChunk → Outcome (List FileChunk)
  | 0, i, _, chunkArray =>
    if i > 0 then Outcome.outOfFuel else Outcome.done chunkArray
  | fuel + 1, i, nextbyte, chunkArray =>
    if i > 0 then
      let newchunk := setupChunkDownload FileChunk.new url nextbyte (nextbyte + chunksize)
      launchLoop url chunksize fuel (i - chunksize) (nextbyte + chunksize)
        (chunkArray ++ [newchunk])
    else Outcome.done chunkArray

/-- The method `launchDLChunks`: set up the download chunks. -/
def launchDLChunks (fuel : Nat) (dl : DownloadTask) : Outcome DownloadTask :=
  let v := dl.dlsize
  (goDiv v dl.parts).bind fun q =>
    let chunksize := q + 1
    (launchLoop dl.url chunksize fuel v 0 dl.chunkArray).bind fun arr =>
      Outcome.done { dl with chunkArray := arr }

/-- Two's-complement wrap-around of `int64` arithmetic: the value in
`[-2^63, 2^63)` congruent to `x` modulo `2^64`. -/
def wrap64 (x : Int) : Int :=
  (x + 9223372036854775808) % 18446744073709551616 - 9223372036854775808

/-- Go division `a / b` on `int64`: truncated quotient, wrapped (the quotient
of the least value by `-1`), panic when `b` is zero. -/
def goDiv64 (a b : Int) : Outcome Int :=
  if b = 0 then Outcome.divideByZero else Outcome.done (wrap64 (Int.tdiv a b))

/-- The loop of `launchDLChunks` with `int64` wrap-around:
`for i := v; i > 0; i = i - chunksize`, from the loop state `i`, `nextbyte`,
`chunkArray`. -/
def launchLoop64 (url : String) (chunksize : Int) :
    Nat → Int → Int → List FileChunk → Outcome (List FileChunk)
  | 0, i, _, chunkArray =>
    if i > 0 then Outcome.outOfFuel else Outcome.done chunkArray
  | fuel + 1, i, nextbyte, chunkArray =>
    if i > 0 then
      let newchunk :=
        setupChunkDownload FileChunk.new url nextbyte (wrap64 (nextbyte + chunksize))
      launchLoop64 url chunksize fuel (wrap64 (i - chunksize)) (wrap64 (nextbyte + chunksize))
        (chunkArray ++ [newchunk])
    else Outcome.done chunkArray

/-- The method `launchDLChunks` with `int64` wrap-around: set up the download
chunks. The fields `dlsize` and `parts` hold `int64` values. -/
def launchDLChunks64 (fuel : Nat) (dl : DownloadTask) : Outcome DownloadTask :=
  let v := dl.dlsize
  (goDiv64 v dl.parts).bind fun q =>
    let chunksize := wrap64 (q + 1)
    (launchLoop64 dl.url chunksize fuel v 0 dl.chunkArray).bind fun arr =>
      Outcome.done { dl with chunkArray := arr }

/-- The method `setupDownloadTask`. The HEAD request of `getURLHead` is
represented by the `ContentLength` it stores in `dlsize`, `os.Create` by its
result (`none` when it fails) and `time.Now()` by `now`. -/
def setupDownloadTask (fuel : Nat) (contentLength : Int) (created : Option File)
    (now : Int) (dl : DownloadTask) (url : String) (parts : Int) : Outcome DownloadTask :=
  let dl := { dl with parts := parts }
  let dl := { dl with url := url }
  let dl := { dl with dlsize := contentLength }
  (launchDLChunks fuel dl).bind fun dl =>
    match created with
    | none => Outcome.done { dl with outputfile := none }
    | some f =>
      Outcome.done { dl with outputfile := some f, starttime := now, totalbdl := 0 }

/-! ## Chunk fetching -/

/-- The error value returned by one call of `Read`: `nil`, `io.EOF`, or any
other error. -/
inductive ReadErr where
  | nil
  | EOF
  | other
deriving DecidableEq, Repr

/-- Result `nr, err` of one call `chunk.resp.Body.Read(buffer)`; `data` is
`buffer[:nr]`, the bytes the call placed in the buffer. -/
structure ReadResult where
  data : List Byte
  err : ReadErr
deriving DecidableEq, Repr

/-- A response body as the reader sees it: the result of its `k`-th call of
`Read`, counted from zero. -/
abbrev Body := Nat → ReadResult

/-- Lines 178-179 of `downloadChunk`: append the bytes of one read to the
buffer and add their number to `bytesdone`. -/
def readStep (chunk : FileChunk) (r : ReadResult) : FileChunk :=
  let chunk := { chunk with chunkdata := chunk.chunkdata ++ r.data }
  { chunk with bytesdone := chunk.bytesdone + (r.data.length : Int) }

/-- The read loop of `downloadChunk` (`for { ... }`), entered when `reads`
calls of `Read` have been made; yields the chunk at the `break` and the number
of calls made by then. -/
def readLoop (body : Body) : Nat → Nat → FileChunk → Option (FileChunk × Nat)
  | 0, _, _ => none
  | fuel + 1, reads, chunk =>
    let r := body reads
    let chunk := readStep chunk r
    if r.err = ReadErr.EOF then some (chunk, reads + 1)
    else readLoop body fuel (reads + 1) chunk

/-- The method `downloadChunk`, for a request that got the response `body`:
the read loop, then `chunk.completed = true`. The second component is the
number of calls of `Read` made. -/
def downloadChunk (fuel : Nat) (body : Body) (chunk : FileChunk) : Option (FileChunk × Nat) :=
  match readLoop body fuel 0 chunk with
  | none => none
  | some (chunk, reads) => some ({ chunk with completed := true }, reads)

/-- The `Range` header of `downloadChunk`, `bytes=startbyte-(endbyte-1)`, as
the pair of its first and last byte positions. -/
def rangeHeader (chunk : FileChunk) : Int × Int :=
  (chunk.startbyte, chunk.endbyte - 1)

/-- Environment: the payload with which a range-honouring server answers the
request `bytes=first-last` for `resource`, the bytes at the positions `first`
up to `min (last + 1) size - 1`. -/
def serveRange (resource : List Byte) (req : Int × Int) : List Byte :=
  (resource.drop req.1.toNat).take
    ((min (req.2 + 1) (resource.length : Int)) - req.1).toNat

/-- States a chunk goes through: set up from `new(FileChunk)`, then read steps
of `downloadChunk`, then the final `completed = true`. -/
inductive FileChunk.Reachable : FileChunk → Prop where
  | setup (url : String) (startbyte endbyte : Int) :
      FileChunk.Reachable (setupChunkDownload FileChunk.new url startbyte endbyte)
  | read (chunk : FileChunk) (r : ReadResult) :
      FileChunk.Reachable chunk → FileChunk.Reachable (readStep chunk r)
  | complete (chunk : FileChunk) :
      FileChunk.Reachable chunk → FileChunk.Reachable { chunk with completed := true }

/-! ## Completion and progress -/

/-- The loop of `checkComplete` with its `break`, from the current `flag`. -/
def checkCompleteLoop (flag : Bool) : List FileChunk → Bool
  | [] => flag
  | chunk :: rest =>
    if chunk.completed == false then false else checkCompleteLoop flag rest

/-- The method `checkComplete` (the one-second sleep changes no state). -/
def checkComplete (dl : DownloadTask) : DownloadTask :=
  { dl with completed := checkCompleteLoop true dl.chunkArray }

/-- The loop of `globalProgress` that totals the downloaded bytes, from the
current `lastbdl`. -/
def progressLoop (lastbdl : Int) : List FileChunk → Int
  | [] => lastbdl
  | chunk :: rest =>
    if chunk.completed then progressLoop (lastbdl + chunk.endbyte - chunk.startbyte) rest
    else progressLoop (lastbdl + (chunk.chunkdata.length : Int)) rest

/-- The four numbers of the progress line printed by `globalProgress`. -/
structure ProgressLine where
  speed : Int
  downloaded : Int
  total : Int
  timeelapsed : Int
deriving DecidableEq, Repr

/-- The constant `time.Second` in nanoseconds. -/
def timeSecond : Int := 1000000000

/-- The method `globalProgress` when the clock reads `now`: the new task state
and the line printed. -/
def globalProgress (now : Int) (dl : DownloadTask) : Outcome (DownloadTask × ProgressLine) :=
  let lastbdl := progressLoop 0 dl.chunkArray
  let timeelapsed := Int.tdiv (now - dl.starttime) timeSecond
  (goDiv (Int.tdiv (lastbdl - dl.totalbdl) 1024) timeelapsed).bind fun speed =>
    Outcome.done
      ({ dl with totalbdl := lastbdl },
       { speed := speed, downloaded := dl.totalbdl, total := dl.dlsize,
         timeelapsed := timeelapsed })

/-- The sum the specification calls `totalBytesNow`: the range width of a
completed chunk, the `bytesdone` counter of any other. -/
def totalBytesNow (chunks : List FileChunk) : Int :=
  (chunks.map fun chunk =>
    if chunk.completed then chunk.endbyte - chunk.startbyte else chunk.bytesdone).sum

/-! ## Assembly -/

/-- The assembly loop of `downloadFile`: one `Write` per chunk, in
`chunkArray` order. -/
def writeChunks (outputfile : Option File) : List FileChunk → Option File
  | [] => outputfile
  | chunk :: rest => writeChunks (File.Write outputfile chunk.chunkdata) rest

/-- The part of `downloadFile` that follows its polling loop: the assembly loop
and the deferred `Close` of the output file. -/
def downloadFileAssemble (dl : DownloadTask) : DownloadTask :=
  { dl with outputfile := File.Close (writeChunks dl.outputfile dl.chunkArray) }

/-- The last statement of `downloadChunk`, `chunk.completed = true`, run by
the goroutine of the chunk at index `i` of `chunkArray`. -/
def markCompleted : List FileChunk → Nat → List FileChunk
  | [], _ => []
  | chunk :: rest, 0 => { chunk with completed := true } :: rest
  | chunk :: rest, i + 1 => chunk :: markCompleted rest i

/-- The chunks after their goroutines finished in the given order. -/
def completeInOrder (order : List Nat) (chunks : List FileChunk) : List FileChunk :=
  order.foldl markCompleted chunks

/-! ## Partitioning: the loop in closed form -/

/-- The chunk that the loop of `launchDLChunks` creates when `nextbyte = s`. -/
def chunkAt (url : String) (chunksize s : Int) : FileChunk :=
  setupChunkDownload FileChunk.new url s (s + chunksize)

/-- The chunks created by `k` iterations of the loop entered with `nextbyte = nb`. -/
def chunkRun (url : String) (chunksize nb : Int) (k : Nat) : List FileChunk :=
  (List.range k).map fun (j : Nat) => chunkAt url chunksize (nb + (j : Int) * chunksize)

/-- The chunk size as the specification words it, `floor(totalSize / n) + 1`;
for a non-negative size and a positive count it is the value
`v/int64(dl.parts) + 1` that `launchDLChunks` computes. -/
def chunkSize (dl : DownloadTask) : Int := dl.dlsize / dl.parts + 1

/-- The byte range `[startbyte, endbyte)` of a chunk. -/
def FileChunk.range (chunk : FileChunk) : Int × Int :=
  (chunk.startbyte, chunk.endbyte)

/-! ## Sample inputs and derived notions -/

/-- A task with one completed chunk `[0,34)` holding 34 bytes and one chunk
`[34,68)` that has read 3 bytes so far, started at time 0. -/
def sampleTask : DownloadTask :=
  { DownloadTask.new with
    dlsize := 68
    parts := 2
    chunkArray :=
      [{ readStep (setupChunkDownload FileChunk.new "u" 0 34)
            { data := List.replicate 34 7, err := ReadErr.EOF } with completed := true },
       readStep (setupChunkDownload FileChunk.new "u" 34 68)
          { data := [1, 2, 3], err := ReadErr.nil }] }

/-- The bytes delivered by the reads `start, start+1, ..., start+count-1` of a body. -/
def Body.received (body : Body) (start count : Nat) : List Byte :=
  ((List.range count).map fun (j : Nat) => (body (start + j)).data).flatten

/-- A response body whose first read returns one byte with an error other
than `io.EOF` and whose second read returns one byte with `io.EOF`. -/
def failingBody : Body := fun k =>
  if k = 0 then { data := [1], err := ReadErr.other } else { data := [2], err := ReadErr.EOF }

/-- The task set up for a 5-byte resource and 2 parts: chunks `[0,3)` and
`[3,6)`, a fresh output file. -/
def sampleSetup : DownloadTask :=
  { DownloadTask.new with
    url := "u"
    parts := 2
    dlsize := 5
    outputfile := some File.create
    chunkArray := [setupChunkDownload FileChunk.new "u" 0 3,
                   setupChunkDownload FileChunk.new "u" 3 6] }

/-- The chunks of `sampleSetup` after complete fetches of the resource
`[10, 20, 30, 40, 50]`: the server cuts the second range at the last byte. -/
def sampleFetched : List FileChunk :=
  [{ setupChunkDownload FileChunk.new "u" 0 3 with
      chunkdata := [10, 20, 30], bytesdone := 3, completed := true },
   { setupChunkDownload FileChunk.new "u" 3 6 with
      chunkdata := [40, 50], bytesdone := 2, completed := true }]

/-! ## Theorems: partitioning -/

theorem chunkRun_succ (url : String) (cs nb : Int) (k : Nat) :
    chunkRun url cs nb (k + 1) = chunkAt url cs nb :: chunkRun url cs (nb + cs) k := by
  unfold chunkRun
  rw [List.range_succ_eq_map]
  simp only [List.map_cons, List.map_map]
  congr 1
  · simp
  · apply List.map_congr_left
    intro j _
    simp only [Function.comp]
    congr 1
    push_cast
    ring

/-- With enough fuel the loop runs `k` times, where
`k` is the least count with `i ≤ k * chunksize`. -/
theorem launchLoop_spec (url : String) (cs : Int) :
    ∀ (fuel : Nat) (i nb : Int) (arr : List FileChunk), i ≤ fuel * cs →
      ∃ k : Nat, k ≤ fuel ∧
        launchLoop url cs fuel i nb arr = Outcome.done (arr ++ chunkRun url cs nb k) ∧
        i ≤ k * cs ∧ (0 < k → ((k : Int) - 1) * cs < i) ∧ (i ≤ 0 → k = 0) := by
  intro fuel
  induction fuel with
  | zero =>
    intro i nb arr hi
    refine ⟨0, le_refl _, ?_, ?_, ?_, ?_⟩
    · have : ¬ i > 0 := by simpa using hi
      simp [launchLoop, this, chunkRun]
    · simpa using hi
    · intro h; exact absurd h (lt_irrefl _)
    · intro _; rfl
  | succ fuel ih =>
    intro i nb arr hi
    by_cases hpos : i > 0
    · have hi' : i - cs ≤ fuel * cs := by
        push_cast at hi
        linarith
      obtain ⟨k, hk, hrun, hle, hlt, _⟩ := ih (i - cs) (nb + cs)
        (arr ++ [setupChunkDownload FileChunk.new url nb (nb + cs)]) hi'
      refine ⟨k + 1, Nat.succ_le_succ hk, ?_, ?_, ?_, ?_⟩
      · simp only [launchLoop, hpos, if_true]
        rw [hrun, chunkRun_succ]
        simp [chunkAt]
      · push_cast; linarith
      · intro _
        push_cast
        by_cases hk0 : k = 0
        · subst hk0; simpa using hpos
        · have := hlt (Nat.pos_of_ne_zero hk0)
          linarith
      · intro h; exact absurd hpos (not_lt.mpr h)
    · refine ⟨0, Nat.zero_le _, ?_, ?_, ?_, ?_⟩
      · simp [launchLoop, hpos, chunkRun]
      · simpa using not_lt.mp hpos
      · intro h; exact absurd h (lt_irrefl _)
      · intro _; rfl

theorem chunkSize_pos (dl : DownloadTask) (hv : 0 ≤ dl.dlsize) (hn : 1 ≤ dl.parts) :
    0 < chunkSize dl := by
  have : 0 ≤ dl.dlsize / dl.parts := Int.ediv_nonneg hv (by omega)
  unfold chunkSize
  omega

theorem dlsize_lt_parts_mul_chunkSize (dl : DownloadTask) (hn : 1 ≤ dl.parts) :
    dl.dlsize < dl.parts * chunkSize dl := by
  have h1 := Int.emod_add_ediv dl.dlsize dl.parts
  have h2 : dl.dlsize % dl.parts < dl.parts := Int.emod_lt_of_pos _ (by omega)
  unfold chunkSize
  rw [mul_add, mul_one]
  omega

/-- For a non-negative size and a positive count, `launchDLChunks` with fuel
for `parts` iterations returns, having appended `k ≤ parts` chunks of width
`chunkSize` laid end to end from byte 0, with `k` the least count that reaches
`dlsize`. -/
theorem launchDLChunks_spec (fuel : Nat) (dl : DownloadTask)
    (hv : 0 ≤ dl.dlsize) (hn : 1 ≤ dl.parts) (hfuel : dl.parts.toNat ≤ fuel) :
    ∃ k : Nat, (k : Int) ≤ dl.parts ∧
      launchDLChunks fuel dl = Outcome.done
        { dl with chunkArray := dl.chunkArray ++ chunkRun dl.url (chunkSize dl) 0 k } ∧
      dl.dlsize ≤ k * chunkSize dl ∧
      (0 < k → ((k : Int) - 1) * chunkSize dl < dl.dlsize) ∧
      (dl.dlsize ≤ 0 → k = 0) := by
  have hcs := chunkSize_pos dl hv hn
  have hlt := dlsize_lt_parts_mul_chunkSize dl hn
  have hfuel' : dl.parts ≤ (fuel : Int) := by omega
  have hi : dl.dlsize ≤ (fuel : Int) * chunkSize dl := by
    have : dl.parts * chunkSize dl ≤ (fuel : Int) * chunkSize dl :=
      mul_le_mul_of_nonneg_right hfuel' (le_of_lt hcs)
    linarith
  obtain ⟨k, _, hrun, hle, hgt, hz⟩ :=
    launchLoop_spec dl.url (chunkSize dl) fuel dl.dlsize 0 dl.chunkArray hi
  have hdiv : Int.tdiv dl.dlsize dl.parts = dl.dlsize / dl.parts :=
    Int.tdiv_eq_ediv hv (by omega)
  have hne : dl.parts ≠ 0 := by omega
  refine ⟨k, ?_, ?_, hle, hgt, hz⟩
  · by_cases hk : k = 0
    · subst hk; simp; omega
    · have h1 := hgt (Nat.pos_of_ne_zero hk)
      have h2 : ((k : Int) - 1) * chunkSize dl < dl.parts * chunkSize dl := lt_trans h1 hlt
      have h3 : (k : Int) - 1 < dl.parts := lt_of_mul_lt_mul_right h2 (le_of_lt hcs)
      omega
  · unfold launchDLChunks goDiv
    simp only [hne, if_false, Outcome.bind, hdiv]
    unfold chunkSize at hrun
    rw [hrun]
    simp [chunkSize]

theorem mem_chunkRun {url : String} {cs nb : Int} {k : Nat} {c : FileChunk} :
    c ∈ chunkRun url cs nb k ↔ ∃ j : Nat, j < k ∧ c = chunkAt url cs (nb + (j : Int) * cs) := by
  unfold chunkRun
  simp only [List.mem_map, List.mem_range]
  constructor
  · rintro ⟨j, hj, rfl⟩; exact ⟨j, hj, rfl⟩
  · rintro ⟨j, hj, rfl⟩; exact ⟨j, hj, rfl⟩

theorem chunkRun_length (url : String) (cs nb : Int) (k : Nat) :
    (chunkRun url cs nb k).length = k := by
  simp [chunkRun]

theorem chunkRun_chain (url : String) (cs : Int) :
    ∀ (k : Nat) (nb : Int),
      List.Chain' (fun a b : FileChunk => b.startbyte = a.endbyte) (chunkRun url cs nb k) := by
  intro k
  induction k with
  | zero => intro nb; simp [chunkRun]
  | succ k ih =>
    intro nb
    rw [chunkRun_succ]
    cases k with
    | zero => simp [chunkRun]
    | succ k =>
      have h := ih (nb + cs)
      rw [chunkRun_succ] at h ⊢
      exact List.Chain'.cons (by simp [chunkAt, setupChunkDownload]) h

theorem chunkRun_pairwise (url : String) (cs nb : Int) (hcs : 0 < cs) (k : Nat) :
    List.Pairwise (fun a b : FileChunk => a.endbyte ≤ b.startbyte) (chunkRun url cs nb k) := by
  unfold chunkRun
  rw [List.pairwise_map]
  refine List.Pairwise.imp ?_ (List.pairwise_lt_range k)
  intro i j hij
  simp only [chunkAt, setupChunkDownload]
  have h1 : (i : Int) + 1 ≤ j := by exact_mod_cast hij
  have h2 : ((i : Int) + 1) * cs ≤ (j : Int) * cs := mul_le_mul_of_nonneg_right h1 (le_of_lt hcs)
  linarith

theorem chunkRun_getLast (url : String) (cs nb : Int) (k : Nat) :
    (chunkRun url cs nb (k + 1)).getLast? = some (chunkAt url cs (nb + (k : Int) * cs)) := by
  unfold chunkRun
  rw [List.range_succ, List.map_append]
  simp

/-! ## Theorems: partitioning with `int64` wrap-around -/

theorem wrap64_of_fits (x : Int) (hlo : -2 ^ 63 ≤ x) (hhi : x < 2 ^ 63) : wrap64 x = x := by
  unfold wrap64
  omega

/-- While every offset fits `int64` the wrapping loop is the unbounded one. -/
theorem launchLoop64_eq_launchLoop (url : String) (cs v : Int) (hcs : 0 < cs)
    (hfit : v + cs ≤ 2 ^ 63) :
    ∀ (fuel : Nat) (i nb : Int) (arr : List FileChunk), i + nb = v → 0 ≤ nb →
      launchLoop64 url cs fuel i nb arr = launchLoop url cs fuel i nb arr := by
  intro fuel
  induction fuel with
  | zero => intro i nb arr _ _; rfl
  | succ fuel ih =>
    intro i nb arr hsum hnb
    by_cases hpos : i > 0
    · have h1 : wrap64 (nb + cs) = nb + cs := wrap64_of_fits _ (by omega) (by omega)
      have h2 : wrap64 (i - cs) = i - cs := wrap64_of_fits _ (by omega) (by omega)
      simp only [launchLoop64, launchLoop, hpos, if_true, h1, h2]
      exact ih _ _ _ (by omega) (by omega)
    · simp [launchLoop64, launchLoop, hpos]

/-- For a non-negative size and a positive count with
`dlsize + dlsize / parts < 2 ^ 63` no `int64` operation of `launchDLChunks`
wraps: the wrapping embedding and the unbounded one give the same outcome. -/
theorem launchDLChunks64_eq_launchDLChunks (fuel : Nat) (dl : DownloadTask)
    (hv : 0 ≤ dl.dlsize) (hn : 1 ≤ dl.parts)
    (hfit : dl.dlsize + dl.dlsize / dl.parts < 2 ^ 63) :
    launchDLChunks64 fuel dl = launchDLChunks fuel dl := by
  have hdiv : Int.tdiv dl.dlsize dl.parts = dl.dlsize / dl.parts :=
    Int.tdiv_eq_ediv hv (by omega)
  have hq0 : 0 ≤ dl.dlsize / dl.parts := Int.ediv_nonneg hv (by omega)
  have hqle : dl.dlsize / dl.parts ≤ dl.dlsize := Int.ediv_le_self _ hv
  have hne : dl.parts ≠ 0 := by omega
  have h1 : wrap64 (dl.dlsize / dl.parts) = dl.dlsize / dl.parts :=
    wrap64_of_fits _ (by omega) (by omega)
  have h2 : wrap64 (dl.dlsize / dl.parts + 1) = dl.dlsize / dl.parts + 1 :=
    wrap64_of_fits _ (by omega) (by omega)
  unfold launchDLChunks64 launchDLChunks goDiv64 goDiv
  simp only [hne, if_false, Outcome.bind, hdiv, h1, h2]
  rw [launchLoop64_eq_launchLoop dl.url (dl.dlsize / dl.parts + 1) dl.dlsize (by omega)
    (by omega) fuel dl.dlsize 0 dl.chunkArray (by omega) (le_refl _)]

/-- For a non-negative size and a positive count with
`dlsize + dlsize / parts < 2 ^ 63`, `launchDLChunks` with fuel for `parts`
iterations returns, having appended `k ≤ parts` chunks of width `chunkSize`
laid end to end from byte 0, with `k` the least count that reaches `dlsize`. -/
theorem launchDLChunks64_spec (fuel : Nat) (dl : DownloadTask)
    (hv : 0 ≤ dl.dlsize) (hn : 1 ≤ dl.parts)
    (hfit : dl.dlsize + dl.dlsize / dl.parts < 2 ^ 63) (hfuel : dl.parts.toNat ≤ fuel) :
    ∃ k : Nat, (k : Int) ≤ dl.parts ∧
      launchDLChunks64 fuel dl = Outcome.done
        { dl with chunkArray := dl.chunkArray ++ chunkRun dl.url (chunkSize dl) 0 k } ∧
      dl.dlsize ≤ k * chunkSize dl ∧
      (0 < k → ((k : Int) - 1) * chunkSize dl < dl.dlsize) ∧
      (dl.dlsize ≤ 0 → k = 0) := by
  rw [launchDLChunks64_eq_launchDLChunks fuel dl hv hn hfit]
  exact launchDLChunks_spec fuel dl hv hn hfuel

/-- C1 (as stated, refuted). At size `2^63 - 1` with 1 part the chunk size
`v/1 + 1` wraps to `-2^63` and the only chunk is `[0, -2^63)`, whose
`startbyte` is above its `endbyte`; with 5 parts the last chunk starts at
7378697629483820648 and its `endbyte` wraps to -9223372036854775806. -/
theorem launchDLChunks64_wraps_at_max_size :
    (∃ dl' : DownloadTask,
      launchDLChunks64 1 { DownloadTask.new with dlsize := 9223372036854775807, parts := 1 } =
        Outcome.done dl' ∧
      dl'.chunkArray.map FileChunk.range = [(0, -9223372036854775808)] ∧
      ¬ (∀ c ∈ dl'.chunkArray, c.startbyte < c.endbyte)) ∧
    (∃ dl' : DownloadTask,
      launchDLChunks64 5 { DownloadTask.new with dlsize := 9223372036854775807, parts := 5 } =
        Outcome.done dl' ∧
      (dl'.chunkArray.map FileChunk.range).getLast? =
        some (7378697629483820648, -9223372036854775806) ∧
      ¬ (∀ c ∈ dl'.chunkArray, c.startbyte < c.endbyte)) :=
  ⟨⟨_, rfl, by decide, by decide⟩, ⟨_, rfl, by decide, by decide⟩⟩

/-- C1 (amended). For every size `dlsize ≥ 0` and count `parts ≥ 1` with
`dlsize + floor(dlsize / parts) < 2 ^ 63`, so that no `int64` offset wraps,
`launchDLChunks` started from an empty `chunkArray` returns (given fuel for
`parts` iterations) a chunk sequence that is contiguous and strictly
ascending: a first chunk starts at byte 0, every chunk has
`startbyte < endbyte`, every later chunk starts where the one before it ends,
and so every chunk ends at or before the start of every chunk after it. -/
theorem launchDLChunks64_contiguous (fuel : Nat) (dl : DownloadTask)
    (hv : 0 ≤ dl.dlsize) (hn : 1 ≤ dl.parts)
    (hfit : dl.dlsize + dl.dlsize / dl.parts < 2 ^ 63) (hempty : dl.chunkArray = [])
    (hfuel : dl.parts.toNat ≤ fuel) :
    ∃ dl' : DownloadTask, launchDLChunks64 fuel dl = Outcome.done dl' ∧
      (∀ c : FileChunk, dl'.chunkArray.head? = some c → c.startbyte = 0) ∧
      (∀ c ∈ dl'.chunkArray, c.startbyte < c.endbyte) ∧
      List.Chain' (fun a b : FileChunk => b.startbyte = a.endbyte) dl'.chunkArray ∧
      List.Pairwise (fun a b : FileChunk => a.endbyte ≤ b.startbyte) dl'.chunkArray := by
  obtain ⟨k, _, hrun, _, _, _⟩ := launchDLChunks64_spec fuel dl hv hn hfit hfuel
  have hcs := chunkSize_pos dl hv hn
  refine ⟨_, hrun, ?_, ?_, ?_, ?_⟩
  · intro c hc
    simp only [hempty, List.nil_append] at hc
    cases k with
    | zero => simp [chunkRun] at hc
    | succ k =>
      rw [chunkRun_succ] at hc
      simp only [List.head?_cons, Option.some.injEq] at hc
      subst hc
      rfl
  · intro c hc
    simp only [hempty, List.nil_append] at hc
    obtain ⟨j, _, rfl⟩ := mem_chunkRun.mp hc
    simp only [chunkAt, setupChunkDownload]
    linarith
  · simp only [hempty, List.nil_append]
    exact chunkRun_chain _ _ _ _
  · simp only [hempty, List.nil_append]
    exact chunkRun_pairwise _ _ _ hcs _

/-- C1 (amended) at `dlsize = 100`, `parts = 3`. -/
theorem launchDLChunks64_contiguous_witness :
    ∃ dl' : DownloadTask,
      launchDLChunks64 3 { DownloadTask.new with dlsize := 100, parts := 3 } =
        Outcome.done dl' ∧
      (∀ c : FileChunk, dl'.chunkArray.head? = some c → c.startbyte = 0) ∧
      (∀ c ∈ dl'.chunkArray, c.startbyte < c.endbyte) ∧
      List.Chain' (fun a b : FileChunk => b.startbyte = a.endbyte) dl'.chunkArray ∧
      List.Pairwise (fun a b : FileChunk => a.endbyte ≤ b.startbyte) dl'.chunkArray :=
  launchDLChunks64_contiguous 3 { DownloadTask.new with dlsize := 100, parts := 3 }
    (by decide) (by decide) (by decide) rfl (by decide)

theorem chunkRun_ranges (url : String) (cs : Int) (k : Nat) :
    (chunkRun url cs 0 k).map FileChunk.range =
      (List.range k).map fun (j : Nat) => ((j : Int) * cs, ((j : Int) + 1) * cs) := by
  unfold chunkRun
  rw [List.map_map]
  apply List.map_congr_left
  intro j _
  simp only [Function.comp, FileChunk.range, chunkAt, setupChunkDownload, Prod.mk.injEq]
  constructor <;> ring

/-- C2 (as stated, refuted). At the specification's own scenario, size 100 and
3 parts, `launchDLChunks` builds `[0,34)`, `[34,68)`, `[68,102)`: the final
range is not clipped, its end 102 exceeds the size 100. -/
theorem launchDLChunks_last_not_clipped :
    ∃ dl' : DownloadTask,
      launchDLChunks64 3 { DownloadTask.new with dlsize := 100, parts := 3 } =
        Outcome.done dl' ∧
      dl'.chunkArray.map FileChunk.range = [(0, 34), (34, 68), (68, 102)] ∧
      ¬ (∀ c ∈ dl'.chunkArray, c.endbyte ≤ 100) ∧
      ¬ (∀ c : FileChunk, dl'.chunkArray.getLast? = some c → c.endbyte = 100) :=
  ⟨_, rfl, by decide, by decide, by decide⟩

/-- C2 (amended). For every size `dlsize ≥ 0` and count `parts ≥ 1` with
`dlsize + floor(dlsize / parts) < 2 ^ 63`, `launchDLChunks` builds exactly the
ranges `[j * chunkSize, (j + 1) * chunkSize)` for `j = 0, ..., k - 1`, where
`chunkSize = floor(dlsize / parts) + 1` and `k` is the least count with
`dlsize ≤ k * chunkSize`. No range is clipped. Every range starts below
`dlsize`, the ranges do not overlap, and every byte position of `[0, dlsize)`
lies in one of them. When `dlsize > 0` the last range ends at or after
`dlsize` and less than `chunkSize` beyond it, and it ends at `dlsize` exactly
when `chunkSize` divides `dlsize`. For `dlsize = 0` no chunk is created. -/
theorem launchDLChunks64_cover (fuel : Nat) (dl : DownloadTask)
    (hv : 0 ≤ dl.dlsize) (hn : 1 ≤ dl.parts)
    (hfit : dl.dlsize + dl.dlsize / dl.parts < 2 ^ 63) (hempty : dl.chunkArray = [])
    (hfuel : dl.parts.toNat ≤ fuel) :
    ∃ (dl' : DownloadTask) (k : Nat), launchDLChunks64 fuel dl = Outcome.done dl' ∧
      dl'.chunkArray.map FileChunk.range =
        (List.range k).map (fun (j : Nat) =>
          ((j : Int) * (dl.dlsize / dl.parts + 1),
           ((j : Int) + 1) * (dl.dlsize / dl.parts + 1))) ∧
      dl.dlsize ≤ k * (dl.dlsize / dl.parts + 1) ∧
      (∀ k' : Nat, dl.dlsize ≤ k' * (dl.dlsize / dl.parts + 1) → k ≤ k') ∧
      (∀ c ∈ dl'.chunkArray, c.startbyte < dl.dlsize) ∧
      List.Pairwise (fun a b : FileChunk => a.endbyte ≤ b.startbyte) dl'.chunkArray ∧
      (∀ p : Int, 0 ≤ p → p < dl.dlsize →
        ∃ c ∈ dl'.chunkArray, c.startbyte ≤ p ∧ p < c.endbyte) ∧
      (0 < dl.dlsize → ∃ last : FileChunk, dl'.chunkArray.getLast? = some last ∧
        dl.dlsize ≤ last.endbyte ∧ last.endbyte < dl.dlsize + (dl.dlsize / dl.parts + 1) ∧
        (last.endbyte = dl.dlsize ↔ (dl.dlsize / dl.parts + 1) ∣ dl.dlsize)) ∧
      (dl.dlsize = 0 → dl'.chunkArray = []) := by
  obtain ⟨k, _, hrun, hle, hgt, hz⟩ := launchDLChunks64_spec fuel dl hv hn hfit hfuel
  have hcs := chunkSize_pos dl hv hn
  have hcsdef : chunkSize dl = dl.dlsize / dl.parts + 1 := rfl
  refine ⟨_, k, hrun, ?_, ?_, ?_, ?_, ?_, ?_, ?_, ?_⟩
  · simp only [hempty, List.nil_append]
    exact chunkRun_ranges _ _ _
  · exact hle
  · intro k' hk'
    by_contra hcon
    have hk : 0 < k := by omega
    have h1 : (k' : Int) ≤ (k : Int) - 1 := by omega
    have h2 : (k' : Int) * chunkSize dl ≤ ((k : Int) - 1) * chunkSize dl :=
      mul_le_mul_of_nonneg_right h1 (le_of_lt hcs)
    have h3 := hgt hk
    rw [← hcsdef] at hk'
    linarith
  · intro c hc
    simp only [hempty, List.nil_append] at hc
    obtain ⟨j, hj, rfl⟩ := mem_chunkRun.mp hc
    simp only [chunkAt, setupChunkDownload]
    have hk : 0 < k := by omega
    have h1 : (j : Int) ≤ (k : Int) - 1 := by omega
    have h2 : (j : Int) * chunkSize dl ≤ ((k : Int) - 1) * chunkSize dl :=
      mul_le_mul_of_nonneg_right h1 (le_of_lt hcs)
    have h3 := hgt hk
    linarith
  · simp only [hempty, List.nil_append]
    exact chunkRun_pairwise _ _ _ hcs _
  · intro p hp0 hpv
    simp only [hempty, List.nil_append]
    have hq0 : 0 ≤ p / chunkSize dl := Int.ediv_nonneg hp0 (le_of_lt hcs)
    have hdm := Int.emod_add_ediv p (chunkSize dl)
    have hm0 : 0 ≤ p % chunkSize dl := Int.emod_nonneg _ (ne_of_gt hcs)
    have hm1 : p % chunkSize dl < chunkSize dl := Int.emod_lt_of_pos _ hcs
    have h3 : chunkSize dl * (p / chunkSize dl) = (p / chunkSize dl) * chunkSize dl :=
      mul_comm _ _
    have hjk : (p / chunkSize dl).toNat < k := by
      by_contra hcon
      have h1 : (k : Int) ≤ p / chunkSize dl := by omega
      have h2 : (k : Int) * chunkSize dl ≤ (p / chunkSize dl) * chunkSize dl :=
        mul_le_mul_of_nonneg_right h1 (le_of_lt hcs)
      linarith
    refine ⟨_, mem_chunkRun.mpr ⟨(p / chunkSize dl).toNat, hjk, rfl⟩, ?_, ?_⟩
    · simp only [chunkAt, setupChunkDownload, Int.toNat_of_nonneg hq0]
      linarith
    · simp only [chunkAt, setupChunkDownload, Int.toNat_of_nonneg hq0]
      linarith
  · intro hpos
    simp only [hempty, List.nil_append]
    cases k with
    | zero => simp at hle; omega
    | succ k =>
      have h3 := hgt (Nat.succ_pos k)
      push_cast at h3 hle
      simp only [add_sub_cancel_right] at h3
      refine ⟨_, chunkRun_getLast _ _ _ _, ?_, ?_, ?_⟩
      · simp only [chunkAt, setupChunkDownload]
        linarith
      · simp only [chunkAt, setupChunkDownload]
        rw [← hcsdef]
        linarith
      · simp only [chunkAt, setupChunkDownload]
        rw [← hcsdef]
        constructor
        · intro h
          exact ⟨(k : Int) + 1, by linarith⟩
        · rintro ⟨m, hm⟩
          have hm1 : (k : Int) * chunkSize dl < chunkSize dl * m := by linarith
          have hm2 : chunkSize dl * m ≤ ((k : Int) + 1) * chunkSize dl := by linarith
          have hm3 : (k : Int) < m := by
            by_contra hcon
            have : m ≤ (k : Int) := not_lt.mp hcon
            have := mul_le_mul_of_nonneg_left this (le_of_lt hcs)
            linarith
          have hm4 : m ≤ (k : Int) + 1 := by
            by_contra hcon
            have : (k : Int) + 1 + 1 ≤ m := by omega
            have := mul_le_mul_of_nonneg_left this (le_of_lt hcs)
            linarith
          have hm5 : m = (k : Int) + 1 := by omega
          rw [hm, hm5]
          ring
  · intro h0
    have : k = 0 := hz (le_of_eq h0)
    subst this
    simp [hempty, chunkRun]

/-- C2 (amended) at `dlsize = 100`, `parts = 3`. -/
theorem launchDLChunks64_cover_witness :
    ∃ (dl' : DownloadTask) (k : Nat),
      launchDLChunks64 3 { DownloadTask.new with dlsize := 100, parts := 3 } =
        Outcome.done dl' ∧
      dl'.chunkArray.map FileChunk.range =
        (List.range k).map (fun (j : Nat) =>
          ((j : Int) * (100 / 3 + 1), ((j : Int) + 1) * (100 / 3 + 1))) ∧
      (100 : Int) ≤ k * (100 / 3 + 1) ∧
      (∀ k' : Nat, (100 : Int) ≤ k' * (100 / 3 + 1) → k ≤ k') ∧
      (∀ c ∈ dl'.chunkArray, c.startbyte < 100) ∧
      List.Pairwise (fun a b : FileChunk => a.endbyte ≤ b.startbyte) dl'.chunkArray ∧
      (∀ p : Int, 0 ≤ p → p < 100 →
        ∃ c ∈ dl'.chunkArray, c.startbyte ≤ p ∧ p < c.endbyte) ∧
      (0 < (100 : Int) → ∃ last : FileChunk, dl'.chunkArray.getLast? = some last ∧
        100 ≤ last.endbyte ∧ last.endbyte < 100 + (100 / 3 + 1) ∧
        (last.endbyte = 100 ↔ ((100 : Int) / 3 + 1) ∣ 100)) ∧
      ((100 : Int) = 0 → dl'.chunkArray = []) :=
  launchDLChunks64_cover 3 { DownloadTask.new with dlsize := 100, parts := 3 }
    (by decide) (by decide) (by decide) rfl (by decide)

/-- With a chunk size in `(0, 2^63)` and a counter below `2^63` the wrapping
loop ends within the fuel that covers `i`; it appends `k` chunks, `k` the
least count with `i ≤ k * chunksize`, whatever happens to `nextbyte`. -/
theorem launchLoop64_count (url : String) (cs : Int) (hcs : 0 < cs) (hcs' : cs < 2 ^ 63) :
    ∀ (fuel : Nat) (i nb : Int) (arr : List FileChunk), i < 2 ^ 63 → i ≤ fuel * cs →
      ∃ added : List FileChunk,
        launchLoop64 url cs fuel i nb arr = Outcome.done (arr ++ added) ∧
        (0 < added.length → ((added.length : Int) - 1) * cs < i) := by
  intro fuel
  induction fuel with
  | zero =>
    intro i nb arr _ hi
    have : ¬ i > 0 := by simpa using hi
    exact ⟨[], by simp [launchLoop64, this], by simp⟩
  | succ fuel ih =>
    intro i nb arr himax hi
    by_cases hpos : i > 0
    · have h2 : wrap64 (i - cs) = i - cs := wrap64_of_fits _ (by omega) (by omega)
      have hi' : i - cs ≤ fuel * cs := by
        push_cast at hi
        linarith
      obtain ⟨added, hrun, hlt⟩ := ih (i - cs) (wrap64 (nb + cs))
        (arr ++ [setupChunkDownload FileChunk.new url nb (wrap64 (nb + cs))]) (by omega) hi'
      refine ⟨setupChunkDownload FileChunk.new url nb (wrap64 (nb + cs)) :: added, ?_, ?_⟩
      · simp only [launchLoop64, hpos, if_true, h2]
        rw [hrun]
        simp
      · intro _
        simp only [List.length_cons]
        push_cast
        by_cases h0 : added.length = 0
        · rw [h0]; simpa using hpos
        · have := hlt (Nat.pos_of_ne_zero h0)
          linarith
    · exact ⟨[], by simp [launchLoop64, hpos], by simp⟩

/-- The wrapping loop at size `2^63 - 1` with the wrapped chunk size `-2^63`:
one chunk, then the counter wraps to `-1` and the loop ends. -/
theorem launchLoop64_at_max_size (url : String) (f : Nat) (arr : List FileChunk) :
    launchLoop64 url (-9223372036854775808) (f + 1) 9223372036854775807 0 arr =
      Outcome.done (arr ++ [setupChunkDownload FileChunk.new url 0 (-9223372036854775808)]) := by
  have hpos : (9223372036854775807 : Int) > 0 := by decide
  have hw2 : wrap64 (9223372036854775807 - -9223372036854775808) = -1 := by decide
  have hw3 : wrap64 (0 + -9223372036854775808) = -9223372036854775808 := by decide
  have hneg : ¬ ((-1 : Int) > 0) := by decide
  simp only [launchLoop64, hpos, if_true, hw2, hw3]
  cases f <;> simp only [launchLoop64, hneg, if_false]

/-- C5 (as stated, refuted). At size `2^63 - 1` with 1 part `launchDLChunks`
terminates with one chunk, but the chunk size `v/1 + 1` wraps to `-2^63`: the
chunk is `[0, -2^63)`, so its width is not `floor(dlsize / parts) + 1 = 2^63`. -/
theorem launchDLChunks64_chunksize_wraps :
    ∃ dl' : DownloadTask,
      launchDLChunks64 1 { DownloadTask.new with dlsize := 9223372036854775807, parts := 1 } =
        Outcome.done dl' ∧
      dl'.chunkArray.length = 1 ∧
      wrap64 (Int.tdiv 9223372036854775807 1 + 1) = -9223372036854775808 ∧
      ¬ (∀ c ∈ dl'.chunkArray,
          c.endbyte - c.startbyte = (9223372036854775807 : Int) / 1 + 1) :=
  ⟨_, rfl, by decide, by decide, by decide⟩

/-- C5 (amended). For every size `dlsize ≥ 0` that is an `int64` value
(`dlsize < 2 ^ 63`) and every count `parts ≥ 1`, `launchDLChunks` terminates
(fuel for `parts` iterations is enough) and creates at most `parts` chunks:
the chunk array keeps its entries and grows by at most `parts`. When
`dlsize + floor(dlsize / parts) < 2 ^ 63`, so that no `int64` offset wraps,
every chunk created has width `floor(dlsize / parts) + 1`. -/
theorem launchDLChunks64_count_le (fuel : Nat) (dl : DownloadTask)
    (hv : 0 ≤ dl.dlsize) (hmax : dl.dlsize < 2 ^ 63) (hn : 1 ≤ dl.parts)
    (hfuel : dl.parts.toNat ≤ fuel) :
    ∃ dl' : DownloadTask, launchDLChunks64 fuel dl = Outcome.done dl' ∧
      dl'.chunkArray.take dl.chunkArray.length = dl.chunkArray ∧
      (dl'.chunkArray.length : Int) ≤ dl.chunkArray.length + dl.parts ∧
      (dl.dlsize + dl.dlsize / dl.parts < 2 ^ 63 →
        ∀ c ∈ dl'.chunkArray.drop dl.chunkArray.length,
          c.endbyte - c.startbyte = dl.dlsize / dl.parts + 1) := by
  have hdiv : Int.tdiv dl.dlsize dl.parts = dl.dlsize / dl.parts :=
    Int.tdiv_eq_ediv hv (by omega)
  have hq0 : 0 ≤ dl.dlsize / dl.parts := Int.ediv_nonneg hv (by omega)
  have hqle : dl.dlsize / dl.parts ≤ dl.dlsize := Int.ediv_le_self _ hv
  have hne : dl.parts ≠ 0 := by omega
  have h1 : wrap64 (dl.dlsize / dl.parts) = dl.dlsize / dl.parts :=
    wrap64_of_fits _ (by omega) (by omega)
  have hfuel' : dl.parts ≤ (fuel : Int) := by omega
  by_cases hq : dl.dlsize / dl.parts + 1 < 2 ^ 63
  · -- the chunk size fits: only `nextbyte` may wrap
    have h2 : wrap64 (dl.dlsize / dl.parts + 1) = dl.dlsize / dl.parts + 1 :=
      wrap64_of_fits _ (by omega) hq
    have hcs := chunkSize_pos dl hv hn
    have hlt := dlsize_lt_parts_mul_chunkSize dl hn
    have hi : dl.dlsize ≤ (fuel : Int) * chunkSize dl := by
      have : dl.parts * chunkSize dl ≤ (fuel : Int) * chunkSize dl :=
        mul_le_mul_of_nonneg_right hfuel' (le_of_lt hcs)
      linarith
    obtain ⟨added, hrun, hgt⟩ := launchLoop64_count dl.url (chunkSize dl) hcs hq fuel
      dl.dlsize 0 dl.chunkArray hmax hi
    have hres : launchDLChunks64 fuel dl =
        Outcome.done { dl with chunkArray := dl.chunkArray ++ added } := by
      unfold launchDLChunks64 goDiv64
      simp only [hne, if_false, Outcome.bind, hdiv, h1, h2]
      unfold chunkSize at hrun
      rw [hrun]
    refine ⟨_, hres, by simp, ?_, ?_⟩
    · simp only [List.length_append]
      push_cast
      by_cases h0 : added.length = 0
      · rw [h0]; simp; omega
      · have h3 := hgt (Nat.pos_of_ne_zero h0)
        have h4 : ((added.length : Int) - 1) * chunkSize dl < dl.parts * chunkSize dl :=
          lt_trans h3 hlt
        have h5 : (added.length : Int) - 1 < dl.parts :=
          lt_of_mul_lt_mul_right h4 (le_of_lt hcs)
        omega
    · intro hfit c hc
      obtain ⟨k, _, hspec, _, _, _⟩ := launchDLChunks64_spec fuel dl hv hn hfit hfuel
      have heq : dl.chunkArray ++ added = dl.chunkArray ++ chunkRun dl.url (chunkSize dl) 0 k := by
        have := hres.symm.trans hspec
        simp only [Outcome.done.injEq] at this
        exact congrArg DownloadTask.chunkArray this
      simp only [heq, List.drop_left] at hc
      obtain ⟨j, _, rfl⟩ := mem_chunkRun.mp hc
      simp [chunkAt, setupChunkDownload, chunkSize]
  · -- the chunk size wraps: `dlsize = 2^63 - 1` and `parts = 1`
    have hp1 : dl.parts = 1 := by
      by_contra hcon
      have h2 : 2 ≤ dl.parts := by omega
      have h3 : dl.dlsize / dl.parts * 2 ≤ dl.dlsize := by
        have h4 := Int.ediv_mul_le dl.dlsize (show dl.parts ≠ 0 by omega)
        have h5 : dl.dlsize / dl.parts * 2 ≤ dl.dlsize / dl.parts * dl.parts :=
          mul_le_mul_of_nonneg_left h2 hq0
        linarith
      omega
    have hq' : dl.dlsize / dl.parts = dl.dlsize := by rw [hp1]; simp
    have hvmax : dl.dlsize = 9223372036854775807 := by omega
    have hw1 : wrap64 (9223372036854775807 + 1) = -9223372036854775808 := by decide
    have hw0 : wrap64 9223372036854775807 = 9223372036854775807 := by decide
    have hq2 : wrap64 (Int.tdiv dl.dlsize dl.parts) = 9223372036854775807 := by
      rw [hdiv, hq', hvmax]; exact hw0
    have hf : ∃ f : Nat, fuel = f + 1 := by
      cases fuel with
      | zero => rw [hp1] at hfuel; simp at hfuel
      | succ f => exact ⟨f, rfl⟩
    obtain ⟨f, rfl⟩ := hf
    have hres : launchDLChunks64 (f + 1) dl =
        Outcome.done { dl with chunkArray := dl.chunkArray ++
          [setupChunkDownload FileChunk.new dl.url 0 (-9223372036854775808)] } := by
      unfold launchDLChunks64 goDiv64
      simp only [hne, if_false, Outcome.bind, hq2, hw1]
      rw [hvmax, launchLoop64_at_max_size]
    refine ⟨_, hres, by simp, ?_, ?_⟩
    · simp [hp1]
    · intro hfit
      omega

/-- C5 (amended) at `dlsize = 100`, `parts = 3`: three chunks of width 34. -/
theorem launchDLChunks64_count_le_witness :
    ∃ dl' : DownloadTask,
      launchDLChunks64 3 { DownloadTask.new with dlsize := 100, parts := 3 } =
        Outcome.done dl' ∧
      dl'.chunkArray.take 0 = [] ∧
      (dl'.chunkArray.length : Int) ≤ (0 : Nat) + 3 ∧
      ((100 : Int) + 100 / 3 < 2 ^ 63 →
        ∀ c ∈ dl'.chunkArray.drop 0, c.endbyte - c.startbyte = 100 / 3 + 1) :=
  launchDLChunks64_count_le 3 { DownloadTask.new with dlsize := 100, parts := 3 }
    (by decide) (by decide) (by decide) (by decide)

/-! ## Theorems: chunk count validation -/

/-- C7 (as stated, refuted). With `parts = 0` every run of `launchDLChunks`
ends in the panic of the division; with size 100 and `parts = -100` the chunk
size is 0 and the loop never ends; with size 100 and `parts = -200` it returns
normally with 100 chunks. No run reports a configuration error, and
`setupDownloadTask` called with `parts = 0` ends in the same panic. -/
theorem launchDLChunks_nonpositive_parts_unchecked :
    (∀ fuel : Nat,
      launchDLChunks fuel { DownloadTask.new with dlsize := 100, parts := 0 } =
        Outcome.divideByZero) ∧
    (∀ fuel : Nat,
      launchDLChunks fuel { DownloadTask.new with dlsize := 100, parts := -100 } =
        Outcome.outOfFuel) ∧
    (∃ dl' : DownloadTask,
      launchDLChunks 100 { DownloadTask.new with dlsize := 100, parts := -200 } =
        Outcome.done dl' ∧ dl'.chunkArray.length = 100) ∧
    (∀ fuel : Nat,
      setupDownloadTask fuel 100 (some File.create) 0 DownloadTask.new "u" 0 =
        Outcome.divideByZero) := by
  refine ⟨fun fuel => rfl, ?_, ⟨_, rfl, by decide⟩, fun fuel => rfl⟩
  intro fuel
  have h : ∀ (fuel : Nat) (nb : Int) (arr : List FileChunk),
      launchLoop "" 0 fuel 100 nb arr = Outcome.outOfFuel := by
    intro fuel
    induction fuel with
    | zero => intro nb arr; rfl
    | succ fuel ih =>
      intro nb arr
      simp only [launchLoop]
      exact ih _ _
  show (launchLoop "" 0 fuel 100 0 []).bind _ = Outcome.outOfFuel
  rw [h]
  rfl

theorem launchLoop_length (url : String) (cs : Int) :
    ∀ (fuel : Nat) (i nb : Int) (arr res : List FileChunk), 0 < i →
      launchLoop url cs fuel i nb arr = Outcome.done res → arr.length + 1 ≤ res.length := by
  have hmono : ∀ (fuel : Nat) (i nb : Int) (arr res : List FileChunk),
      launchLoop url cs fuel i nb arr = Outcome.done res → arr.length ≤ res.length := by
    intro fuel
    induction fuel with
    | zero =>
      intro i nb arr res h
      by_cases hi : i > 0
      · simp [launchLoop, hi] at h
      · simp only [launchLoop, hi, if_false, Outcome.done.injEq] at h
        rw [h]
    | succ fuel ih =>
      intro i nb arr res h
      by_cases hi : i > 0
      · simp only [launchLoop, hi, if_true] at h
        have := ih _ _ _ _ h
        simp at this
        omega
      · simp only [launchLoop, hi, if_false, Outcome.done.injEq] at h
        rw [h]
  intro fuel i nb arr res hi h
  cases fuel with
  | zero => simp [launchLoop, hi] at h
  | succ fuel =>
    simp only [launchLoop, gt_iff_lt, hi, if_true] at h
    have := hmono _ _ _ _ _ h
    simpa using this

theorem launchLoop_ne_divideByZero (url : String) (cs : Int) :
    ∀ (fuel : Nat) (i nb : Int) (arr : List FileChunk),
      launchLoop url cs fuel i nb arr ≠ Outcome.divideByZero := by
  intro fuel
  induction fuel with
  | zero =>
    intro i nb arr
    by_cases hi : i > 0 <;> simp [launchLoop, hi]
  | succ fuel ih =>
    intro i nb arr
    by_cases hi : i > 0
    · simp only [launchLoop, hi, if_true]
      exact ih _ _ _
    · simp [launchLoop, hi]

/-- C7 (amended). `launchDLChunks` validates nothing and reports no
configuration error. With `parts = 0` it creates no chunk because the division
by `parts` panics. With `parts < 0` and `dlsize ≤ 0` it returns normally and
creates no chunk. With `parts < 0` and `dlsize > 0` it does not panic, and
whenever it returns it has created at least one chunk. -/
theorem launchDLChunks_nonpositive_parts (fuel : Nat) (dl : DownloadTask) :
    (dl.parts = 0 → launchDLChunks fuel dl = Outcome.divideByZero) ∧
    (dl.parts < 0 → dl.dlsize ≤ 0 → launchDLChunks fuel dl = Outcome.done dl) ∧
    (dl.parts < 0 → 0 < dl.dlsize →
      launchDLChunks fuel dl ≠ Outcome.divideByZero ∧
      ∀ dl' : DownloadTask, launchDLChunks fuel dl = Outcome.done dl' →
        dl.chunkArray.length + 1 ≤ dl'.chunkArray.length) := by
  refine ⟨?_, ?_, ?_⟩
  · intro h0
    simp [launchDLChunks, goDiv, h0, Outcome.bind]
  · intro hneg hv
    have hne : dl.parts ≠ 0 := by omega
    have hi : ¬ dl.dlsize > 0 := by omega
    cases fuel <;> simp [launchDLChunks, goDiv, hne, Outcome.bind, launchLoop, hi]
  · intro hneg hv
    have hne : dl.parts ≠ 0 := by omega
    simp only [launchDLChunks, goDiv, hne, if_false, Outcome.bind]
    cases hrun : launchLoop dl.url (Int.tdiv dl.dlsize dl.parts + 1) fuel dl.dlsize 0
        dl.chunkArray with
    | done res =>
      refine ⟨by simp, ?_⟩
      intro dl' hdl'
      simp only [Outcome.done.injEq] at hdl'
      subst hdl'
      exact launchLoop_length _ _ _ _ _ _ _ hv hrun
    | divideByZero => exact absurd hrun (launchLoop_ne_divideByZero _ _ _ _ _ _)
    | outOfFuel => simp

/-- C7 (amended) at `parts = 0`, at `parts = -3` with size 0, and at
`parts = -200` with size 100. -/
theorem launchDLChunks_nonpositive_parts_witness :
    launchDLChunks 5 { DownloadTask.new with dlsize := 100, parts := 0 } =
      Outcome.divideByZero ∧
    launchDLChunks 5 { DownloadTask.new with dlsize := 0, parts := -3 } =
      Outcome.done { DownloadTask.new with dlsize := 0, parts := -3 } ∧
    launchDLChunks 100 { DownloadTask.new with dlsize := 100, parts := -200 } ≠
      Outcome.divideByZero :=
  ⟨(launchDLChunks_nonpositive_parts 5
      { DownloadTask.new with dlsize := 100, parts := 0 }).1 rfl,
   (launchDLChunks_nonpositive_parts 5
      { DownloadTask.new with dlsize := 0, parts := -3 }).2.1 (by decide) (by decide),
   ((launchDLChunks_nonpositive_parts 100
      { DownloadTask.new with dlsize := 100, parts := -200 }).2.2 (by decide) (by decide)).1⟩

/-! ## Theorems: completion check -/

theorem checkCompleteLoop_true (chunks : List FileChunk) :
    checkCompleteLoop true chunks = true ↔ ∀ c ∈ chunks, c.completed = true := by
  induction chunks with
  | nil => simp [checkCompleteLoop]
  | cons c rest ih =>
    cases hc : c.completed <;> simp [checkCompleteLoop, hc, ih]

/-- C8. After `checkComplete` the task's `completed` flag is true exactly when
every chunk of `chunkArray` has `completed = true` (so it is true for an empty
chunk set), and `checkComplete` leaves `chunkArray`, hence every chunk's
state, unchanged. -/
theorem checkComplete_completed_iff (dl : DownloadTask) :
    ((checkComplete dl).completed = true ↔ ∀ c ∈ dl.chunkArray, c.completed = true) ∧
    (dl.chunkArray = [] → (checkComplete dl).completed = true) ∧
    (checkComplete dl).chunkArray = dl.chunkArray := by
  refine ⟨checkCompleteLoop_true dl.chunkArray, ?_, rfl⟩
  intro h
  simp [checkComplete, h, checkCompleteLoop]

/-! ## Theorems: progress -/

theorem progressLoop_eq (chunks : List FileChunk) :
    ∀ lastbdl : Int, progressLoop lastbdl chunks = lastbdl +
      (chunks.map fun chunk =>
        if chunk.completed then chunk.endbyte - chunk.startbyte
        else (chunk.chunkdata.length : Int)).sum := by
  induction chunks with
  | nil => intro lastbdl; simp [progressLoop]
  | cons c rest ih =>
    intro lastbdl
    cases hc : c.completed
    · simp only [progressLoop, hc, ih, List.map_cons, List.sum_cons]
      simp
      ring
    · simp only [progressLoop, hc, ih, List.map_cons, List.sum_cons]
      simp
      ring

/-- In every reachable chunk state the counter `bytesdone` is the length of
the buffer `chunkdata`. -/
theorem FileChunk.Reachable.bytesdone_eq {chunk : FileChunk} (h : chunk.Reachable) :
    chunk.bytesdone = (chunk.chunkdata.length : Int) := by
  induction h with
  | setup url s e => simp [setupChunkDownload, FileChunk.new]
  | read c r _ ih => simp [readStep, ih]
  | complete c _ ih => exact ih

theorem progressLoop_eq_totalBytesNow (chunks : List FileChunk)
    (h : ∀ c ∈ chunks, c.Reachable) : progressLoop 0 chunks = totalBytesNow chunks := by
  rw [progressLoop_eq, zero_add]
  unfold totalBytesNow
  congr 1
  apply List.map_congr_left
  intro c hc
  rw [(h c hc).bytesdone_eq]

theorem sampleTask_reachable : ∀ c ∈ sampleTask.chunkArray, c.Reachable := by
  intro c hc
  simp only [sampleTask, List.mem_cons, List.mem_singleton, List.not_mem_nil,
    or_false] at hc
  rcases hc with rfl | rfl
  · exact FileChunk.Reachable.complete _
      (FileChunk.Reachable.read _ _ (FileChunk.Reachable.setup _ _ _))
  · exact FileChunk.Reachable.read _ _ (FileChunk.Reachable.setup _ _ _)

/-- C9 (as stated, refuted). Half a second after `starttime` the elapsed time
is not zero and the chunks of `sampleTask` are reachable, yet
`timeelapsed = 0` whole seconds: `globalProgress` panics on the division and
does not set `totalbdl`. -/
theorem globalProgress_subsecond_elapsed_faults :
    (500000000 : Int) - sampleTask.starttime ≠ 0 ∧
    (∀ c ∈ sampleTask.chunkArray, c.Reachable) ∧
    globalProgress 500000000 sampleTask = Outcome.divideByZero ∧
    ¬ ∃ line : ProgressLine,
        globalProgress 500000000 sampleTask =
          Outcome.done
            ({ sampleTask with totalbdl := totalBytesNow sampleTask.chunkArray }, line) := by
  refine ⟨by decide, sampleTask_reachable, rfl, ?_⟩
  rintro ⟨line, h⟩
  have h2 : globalProgress 500000000 sampleTask = Outcome.divideByZero := rfl
  rw [h2] at h
  exact Outcome.noConfusion h

/-- C9 (amended). For a task whose chunks are in states reachable through
`setupChunkDownload` and the read steps of `downloadChunk`, and an elapsed
time whose number of whole seconds since `starttime`, `timeelapsed`, is not
zero, `globalProgress` returns and sets `totalbdl` to `totalBytesNow`: the sum
over the chunks of `endbyte - startbyte` when the chunk is completed and of
its `bytesdone` otherwise; no other field of the task changes. -/
theorem globalProgress_totalbdl (now : Int) (dl : DownloadTask)
    (hreach : ∀ c ∈ dl.chunkArray, c.Reachable)
    (helapsed : Int.tdiv (now - dl.starttime) timeSecond ≠ 0) :
    ∃ line : ProgressLine,
      globalProgress now dl =
        Outcome.done ({ dl with totalbdl := totalBytesNow dl.chunkArray }, line) := by
  unfold globalProgress goDiv
  simp only [helapsed, if_false, Outcome.bind, progressLoop_eq_totalBytesNow _ hreach]
  exact ⟨_, rfl⟩

/-- C9 (amended) on `sampleTask`, two seconds after the start: `totalbdl`
becomes 37. -/
theorem globalProgress_totalbdl_witness :
    ∃ line : ProgressLine,
      globalProgress 2000000000 sampleTask =
        Outcome.done ({ sampleTask with totalbdl := totalBytesNow sampleTask.chunkArray }, line) :=
  globalProgress_totalbdl 2000000000 sampleTask
    (by
      intro c hc
      simp only [sampleTask, List.mem_cons, List.mem_singleton, List.not_mem_nil,
        or_false] at hc
      rcases hc with rfl | rfl
      · exact FileChunk.Reachable.complete _
          (FileChunk.Reachable.read _ _ (FileChunk.Reachable.setup _ _ _))
      · exact FileChunk.Reachable.read _ _ (FileChunk.Reachable.setup _ _ _))
    (by decide)

/-- C10 (as stated, refuted). Sampled less than one whole second after
`starttime` (here 999999999 ns), `globalProgress` divides by `timeelapsed = 0`
and panics: there is no speed value and `totalbdl` is not updated. -/
theorem globalProgress_zero_elapsed_faults :
    Int.tdiv (999999999 - sampleTask.starttime) timeSecond = 0 ∧
    globalProgress 999999999 sampleTask = Outcome.divideByZero := by
  constructor
  · decide
  · rfl

/-- C10 (amended). For every task state and every clock reading whose whole
number of seconds since `starttime`, `timeelapsed`, is not zero, the speed
computation of `globalProgress` does not divide by zero: it yields the speed
`((lastbdl - totalbdl) / 1024) / timeelapsed` (truncated divisions), prints it
with the old `totalbdl`, and updates `totalbdl` to `lastbdl`. -/
theorem globalProgress_defined (now : Int) (dl : DownloadTask)
    (helapsed : Int.tdiv (now - dl.starttime) timeSecond ≠ 0) :
    globalProgress now dl =
      Outcome.done
        ({ dl with totalbdl := progressLoop 0 dl.chunkArray },
         { speed := Int.tdiv (Int.tdiv (progressLoop 0 dl.chunkArray - dl.totalbdl) 1024)
                      (Int.tdiv (now - dl.starttime) timeSecond)
           downloaded := dl.totalbdl
           total := dl.dlsize
           timeelapsed := Int.tdiv (now - dl.starttime) timeSecond }) := by
  unfold globalProgress goDiv
  simp only [helapsed, if_false, Outcome.bind]

/-- Once a whole second has passed since `starttime`, as it has at every call
made by `downloadFile` (which sleeps one second before each call),
`timeelapsed` is not zero. -/
theorem timeelapsed_ne_zero (now : Int) (dl : DownloadTask)
    (h : timeSecond ≤ now - dl.starttime) :
    Int.tdiv (now - dl.starttime) timeSecond ≠ 0 := by
  have hpos : (0 : Int) < timeSecond := by decide
  have h0 : 0 ≤ now - dl.starttime := le_trans (le_of_lt hpos) h
  rw [Int.tdiv_eq_ediv h0 (le_of_lt hpos)]
  have : 1 ≤ (now - dl.starttime) / timeSecond := by
    rw [Int.le_ediv_iff_mul_le hpos]
    simpa using h
  omega

/-- C10 (amended) on `sampleTask`, two seconds after the start: the speed is 0
KB/s (37 bytes in 2 s) and `totalbdl` becomes 37. -/
theorem globalProgress_defined_witness :
    globalProgress 2000000000 sampleTask =
      Outcome.done
        ({ sampleTask with totalbdl := 37 },
         { speed := 0, downloaded := 0, total := 68, timeelapsed := 2 }) :=
  (globalProgress_defined 2000000000 sampleTask (by decide)).trans (by decide)

/-- The speed computation faults exactly when `timeelapsed` is zero. -/
theorem globalProgress_faults_iff (now : Int) (dl : DownloadTask) :
    globalProgress now dl = Outcome.divideByZero ↔
      Int.tdiv (now - dl.starttime) timeSecond = 0 := by
  unfold globalProgress goDiv
  by_cases h : Int.tdiv (now - dl.starttime) timeSecond = 0 <;>
    simp [h, Outcome.bind]

/-! ## Theorems: chunk fetching -/

theorem Body.received_succ (body : Body) (start count : Nat) :
    Body.received body start (count + 1) =
      (body start).data ++ Body.received body (start + 1) count := by
  unfold Body.received
  rw [List.range_succ_eq_map]
  simp only [List.map_cons, List.map_map, List.flatten_cons, Nat.add_zero]
  congr 2
  apply List.map_congr_left
  intro j _
  simp only [Function.comp]
  congr 2
  omega

/-- The read loop runs up to and including the first read that returns
`io.EOF`, whatever the earlier reads returned. -/
theorem readLoop_first_EOF (body : Body) :
    ∀ (k fuel start : Nat) (chunk : FileChunk),
      (body (start + k)).err = ReadErr.EOF →
      (∀ j : Nat, j < k → (body (start + j)).err ≠ ReadErr.EOF) → k < fuel →
      readLoop body fuel start chunk =
        some ({ chunk with
                chunkdata := chunk.chunkdata ++ Body.received body start (k + 1)
                bytesdone := chunk.bytesdone +
                  ((Body.received body start (k + 1)).length : Int) },
              start + k + 1) := by
  intro k
  induction k with
  | zero =>
    intro fuel start chunk heof _ hfuel
    cases fuel with
    | zero => omega
    | succ fuel =>
      have heof' : (body start).err = ReadErr.EOF := by simpa using heof
      have hrec : Body.received body start (0 + 1) = (body start).data := by
        rw [Body.received_succ]
        simp [Body.received]
      rw [hrec]
      simp [readLoop, heof', readStep]
  | succ k ih =>
    intro fuel start chunk heof hfirst hfuel
    cases fuel with
    | zero => omega
    | succ fuel =>
      have h0 : (body start).err ≠ ReadErr.EOF := by simpa using hfirst 0 (Nat.succ_pos k)
      have heof' : (body (start + 1 + k)).err = ReadErr.EOF := by
        rw [show start + 1 + k = start + (k + 1) by omega]; exact heof
      have hfirst' : ∀ j : Nat, j < k → (body (start + 1 + j)).err ≠ ReadErr.EOF := by
        intro j hj
        rw [show start + 1 + j = start + (j + 1) by omega]
        exact hfirst (j + 1) (by omega)
      simp only [readLoop, h0, if_false]
      rw [ih fuel (start + 1) (readStep chunk (body start)) heof' hfirst' (by omega)]
      rw [Body.received_succ body start (k + 1)]
      simp only [readStep, List.append_assoc, List.length_append, Nat.cast_add]
      congr 2
      · congr 1
        ring
      · omega

/-- A body none of whose reads returns `io.EOF` keeps the read loop running. -/
theorem readLoop_without_EOF (body : Body) (hnever : ∀ j : Nat, (body j).err ≠ ReadErr.EOF) :
    ∀ (fuel start : Nat) (chunk : FileChunk), readLoop body fuel start chunk = none := by
  intro fuel
  induction fuel with
  | zero => intro start chunk; rfl
  | succ fuel ih =>
    intro start chunk
    simp only [readLoop, hnever start, if_false]
    exact ih _ _

/-- C6 (as stated, refuted). On `failingBody` the first read returns a
non-EOF error, yet `downloadChunk` does not stop there: with fuel for one read
it has not returned, and it returns after a second read, with the bytes of
both reads in the buffer. No run returns after one read. -/
theorem downloadChunk_continues_after_error :
    (failingBody 0).err = ReadErr.other ∧
    downloadChunk 1 failingBody (setupChunkDownload FileChunk.new "u" 0 2) = none ∧
    downloadChunk 2 failingBody (setupChunkDownload FileChunk.new "u" 0 2) =
      some ({ setupChunkDownload FileChunk.new "u" 0 2 with
              chunkdata := [1, 2], bytesdone := 2, completed := true }, 2) ∧
    ∀ (fuel : Nat) (chunk : FileChunk),
      downloadChunk fuel failingBody (setupChunkDownload FileChunk.new "u" 0 2) ≠
        some (chunk, 1) := by
  refine ⟨rfl, rfl, rfl, ?_⟩
  intro fuel chunk
  match fuel with
  | 0 => simp [downloadChunk, readLoop]
  | 1 => simp [downloadChunk, readLoop, failingBody]
  | fuel + 2 => simp [downloadChunk, readLoop, failingBody]

/-- C6 (amended). For every chunk and every response stream, `downloadChunk`
leaves its read loop only at the first read that returns `io.EOF`: if read
number `k` is the first to return `io.EOF`, whatever errors the earlier reads
returned, `downloadChunk` makes exactly `k + 1` reads and marks the chunk
completed with the bytes of all `k + 1` reads appended to its buffer and
counted in `bytesdone`. -/
theorem downloadChunk_stops_at_first_EOF (fuel : Nat) (body : Body) (chunk : FileChunk)
    (k : Nat) (heof : (body k).err = ReadErr.EOF)
    (hfirst : ∀ j : Nat, j < k → (body j).err ≠ ReadErr.EOF) (hfuel : k < fuel) :
    downloadChunk fuel body chunk =
      some ({ chunk with
              chunkdata := chunk.chunkdata ++ Body.received body 0 (k + 1)
              bytesdone := chunk.bytesdone + ((Body.received body 0 (k + 1)).length : Int)
              completed := true },
            k + 1) := by
  have h := readLoop_first_EOF body k fuel 0 chunk (by simpa using heof)
    (by simpa using hfirst) hfuel
  simp [downloadChunk, h]

/-- C6 (amended) on `failingBody`: the first `io.EOF` is at read 1, so two
reads are made and both bytes are kept. -/
theorem downloadChunk_stops_at_first_EOF_witness :
    downloadChunk 5 failingBody (setupChunkDownload FileChunk.new "u" 0 2) =
      some ({ setupChunkDownload FileChunk.new "u" 0 2 with
              chunkdata := [1, 2], bytesdone := 2, completed := true }, 2) :=
  (downloadChunk_stops_at_first_EOF 5 failingBody (setupChunkDownload FileChunk.new "u" 0 2) 1
    rfl (by intro j hj; have : j = 0 := by omega
            subst this; decide) (by decide)).trans rfl

/-- When no read ever returns `io.EOF`, `downloadChunk` never returns and the
chunk is never marked completed. -/
theorem downloadChunk_without_EOF (fuel : Nat) (body : Body) (chunk : FileChunk)
    (hnever : ∀ j : Nat, (body j).err ≠ ReadErr.EOF) :
    downloadChunk fuel body chunk = none := by
  simp [downloadChunk, readLoop_without_EOF body hnever]

/-! ## Theorems: assembly -/

theorem writeChunks_none (chunks : List FileChunk) : writeChunks none chunks = none := by
  induction chunks with
  | nil => rfl
  | cons c rest ih => simpa [writeChunks, File.Write] using ih

theorem writeChunks_some (chunks : List FileChunk) :
    ∀ f : File, writeChunks (some f) chunks =
      some { f with writes := f.writes ++ chunks.map fun c => c.chunkdata } := by
  induction chunks with
  | nil => intro f; simp [writeChunks]
  | cons c rest ih =>
    intro f
    simp [writeChunks, File.Write, ih]

theorem markCompleted_chunkdata (chunks : List FileChunk) :
    ∀ i : Nat, (markCompleted chunks i).map (fun c => c.chunkdata) =
      chunks.map fun c => c.chunkdata := by
  induction chunks with
  | nil => intro i; rfl
  | cons c rest ih =>
    intro i
    cases i with
    | zero => simp [markCompleted]
    | succ i => simp [markCompleted, ih]

theorem completeInOrder_chunkdata (order : List Nat) :
    ∀ chunks : List FileChunk, (completeInOrder order chunks).map (fun c => c.chunkdata) =
      chunks.map fun c => c.chunkdata := by
  induction order with
  | nil => intro chunks; rfl
  | cons i rest ih =>
    intro chunks
    show (completeInOrder rest (markCompleted chunks i)).map _ = _
    rw [ih, markCompleted_chunkdata]

/-- C4. For every chunk sequence with any buffers and an open output file,
the assembly loop of `downloadFile` makes one `Write` per chunk, in
`chunkArray` order, each with that chunk's buffer, so the bytes it adds to the
file are the concatenation of the buffers in `chunkArray` order; the file is
then closed. The result is the same whatever the order in which the chunks
were marked completed. -/
theorem downloadFileAssemble_writes (dl : DownloadTask) (f : File) (order : List Nat)
    (hfile : dl.outputfile = some f) :
    (downloadFileAssemble dl).outputfile =
        some { writes := f.writes ++ dl.chunkArray.map fun c => c.chunkdata, closed := true } ∧
    (∃ f' : File, (downloadFileAssemble dl).outputfile = some f' ∧
      f'.content = f.content ++ (dl.chunkArray.map fun c => c.chunkdata).flatten) ∧
    (downloadFileAssemble
        { dl with chunkArray := completeInOrder order dl.chunkArray }).outputfile =
      (downloadFileAssemble dl).outputfile := by
  have h1 : (downloadFileAssemble dl).outputfile =
      some { writes := f.writes ++ dl.chunkArray.map fun c => c.chunkdata, closed := true } := by
    simp [downloadFileAssemble, hfile, writeChunks_some, File.Close]
  refine ⟨h1, ⟨_, h1, by simp [File.content]⟩, ?_⟩
  rw [h1]
  simp [downloadFileAssemble, hfile, writeChunks_some, File.Close, completeInOrder_chunkdata]

/-- C4 on `sampleTask` with a fresh output file, the second chunk marked
completed before the first: two writes, 34 bytes then 3 bytes. -/
theorem downloadFileAssemble_writes_witness :
    (downloadFileAssemble { sampleTask with outputfile := some File.create }).outputfile =
        some { writes := [List.replicate 34 7, [1, 2, 3]], closed := true } ∧
    (downloadFileAssemble
        { sampleTask with
          outputfile := some File.create
          chunkArray := completeInOrder [1, 0] sampleTask.chunkArray }).outputfile =
      (downloadFileAssemble { sampleTask with outputfile := some File.create }).outputfile :=
  have h := downloadFileAssemble_writes { sampleTask with outputfile := some File.create }
    File.create [1, 0] rfl
  ⟨h.1.trans (by decide), h.2.2⟩

/-! ## Theorems: end to end -/

theorem serveRange_chunkAt (resource : List Byte) (url : String) (cs s : Int)
    (hcs : 0 < cs) (hs : 0 ≤ s) :
    serveRange resource (rangeHeader (chunkAt url cs s)) =
      (resource.drop s.toNat).take cs.toNat := by
  unfold serveRange rangeHeader chunkAt setupChunkDownload
  simp only
  rw [List.take_eq_take, List.length_drop]
  omega

theorem serveRange_chunkRun (resource : List Byte) (url : String) (cs : Int) (hcs : 0 < cs) :
    ∀ (k : Nat) (nb : Int), 0 ≤ nb →
      ((chunkRun url cs nb k).map fun c => serveRange resource (rangeHeader c)).flatten =
        (resource.drop nb.toNat).take (k * cs.toNat) := by
  intro k
  induction k with
  | zero => intro nb _; simp [chunkRun]
  | succ k ih =>
    intro nb hnb
    rw [chunkRun_succ, List.map_cons, List.flatten_cons, ih (nb + cs) (by omega),
      serveRange_chunkAt resource url cs nb hcs hnb]
    have h1 : (nb + cs).toNat = nb.toNat + cs.toNat := by omega
    have h2 : (k + 1) * cs.toNat = cs.toNat + k * cs.toNat := by ring
    rw [h1, h2, List.take_add, List.drop_drop]

/-- C3. For every resource and every count `parts ≥ 1`, the task set up for
the resource's size is partitioned, and if every chunk fetch succeeds
completely, that is, each chunk keeps its range and its buffer holds exactly
the bytes a range-honouring server returns for its `Range` request
`bytes=startbyte-(endbyte-1)`, then the file written by the assembly of
`downloadFile` is byte for byte the resource and its length is `dlsize`. -/
theorem downloadFile_reassembles (fuel : Nat) (parts now : Int) (url : String)
    (resource : List Byte) (hn : 1 ≤ parts) (hfuel : parts.toNat ≤ fuel) :
    ∃ dl : DownloadTask,
      setupDownloadTask fuel resource.length (some File.create) now DownloadTask.new url parts =
        Outcome.done dl ∧
      dl.dlsize = resource.length ∧
      ∀ fetched : List FileChunk,
        fetched.map FileChunk.range = dl.chunkArray.map FileChunk.range →
        (∀ c ∈ fetched, c.chunkdata = serveRange resource (rangeHeader c)) →
        ∃ f : File,
          (downloadFileAssemble { dl with chunkArray := fetched }).outputfile = some f ∧
          f.content = resource ∧ (f.content.length : Int) = dl.dlsize := by
  let dl0 : DownloadTask :=
    { DownloadTask.new with parts := parts, url := url, dlsize := resource.length }
  have hv : 0 ≤ dl0.dlsize := Int.natCast_nonneg _
  obtain ⟨k, _, hrun, hle, _, _⟩ := launchDLChunks_spec fuel dl0 hv hn hfuel
  have hcs := chunkSize_pos dl0 hv hn
  refine ⟨_, by simp only [setupDownloadTask]; rw [hrun]; rfl, rfl, ?_⟩
  intro fetched hranges hbuf
  have hdata : (fetched.map fun c => c.chunkdata) =
      (chunkRun url (chunkSize dl0) 0 k).map fun c => serveRange resource (rangeHeader c) := by
    have e1 : (fetched.map fun c => c.chunkdata) =
        (fetched.map FileChunk.range).map fun r => serveRange resource (r.1, r.2 - 1) := by
      rw [List.map_map]
      apply List.map_congr_left
      intro c hc
      exact hbuf c hc
    rw [e1, hranges, List.map_map]
    simp only [DownloadTask.new, List.nil_append]
    rfl
  have hcontent : (fetched.map fun c => c.chunkdata).flatten = resource := by
    rw [hdata, serveRange_chunkRun resource url _ hcs k 0 (le_refl _)]
    simp only [Int.toNat_zero, List.drop_zero]
    apply List.take_of_length_le
    have h1 : (resource.length : Int) ≤ (k : Int) * chunkSize dl0 := hle
    have h2 : ((chunkSize dl0).toNat : Int) = chunkSize dl0 := Int.toNat_of_nonneg (le_of_lt hcs)
    have h3 : ((k * (chunkSize dl0).toNat : Nat) : Int) = (k : Int) * chunkSize dl0 := by
      push_cast; rw [h2]
    omega
  refine ⟨{ writes := fetched.map fun c => c.chunkdata, closed := true }, ?_, ?_, ?_⟩
  · simp [downloadFileAssemble, writeChunks_some, File.Close, File.create]
  · simpa [File.content] using hcontent
  · simp only [File.content, hcontent]

/-- C3 for the resource `[10, 20, 30, 40, 50]` and 2 parts. -/
theorem downloadFile_reassembles_witness :
    setupDownloadTask 2 5 (some File.create) 0 DownloadTask.new "u" 2 =
      Outcome.done sampleSetup ∧
    ∃ f : File,
      (downloadFileAssemble { sampleSetup with chunkArray := sampleFetched }).outputfile =
        some f ∧
      f.content = [10, 20, 30, 40, 50] ∧ (f.content.length : Int) = sampleSetup.dlsize := by
  obtain ⟨dl, hdl, _, h⟩ :=
    downloadFile_reassembles 2 2 0 "u" [10, 20, 30, 40, 50] (by decide) (by decide)
  have hsetup : setupDownloadTask 2 5 (some File.create) 0 DownloadTask.new "u" 2 =
      Outcome.done sampleSetup := by decide
  have hEq : dl = sampleSetup := by
    have h2 : Outcome.done dl = Outcome.done sampleSetup := hdl.symm.trans hsetup
    exact Outcome.done.inj h2
  subst hEq
  exact ⟨hsetup, h sampleFetched (by decide) (by decide)⟩

end Goget
